import Mathlib

/-!
Verification development for the outline-rag-scraper service.

The Go source is shallowly embedded: pure string helpers become Lean
functions over `List Char`; the effectful pipeline handlers become
functions from an explicit environment of call outcomes (the responses
the remote APIs and the filesystem would return) to the value produced
and the trace of externally visible calls the handler performs.
-/

/-! ## Sanitizer (utils/utils.go) -/

/-- Character class of the regular expression in SanitizeURLTitle:
lowercase ASCII letters (code points 97..122) and digits (48..57).
Characters outside this class are the ones replaced by hyphens. -/
def isSlugChar (c : Char) : Bool :=
  (97 ≤ c.toNat && c.toNat ≤ 122) || (48 ≤ c.toNat && c.toNat ≤ 57)

/-- Model of strings.ToLower on ASCII input: uppercase ASCII letters
(code points 65..90) are shifted down by 32, all other characters are
unchanged. -/
def toLowerChar (c : Char) : Char :=
  if 65 ≤ c.toNat && c.toNat ≤ 90 then Char.ofNat (c.toNat + 32) else c

/-- Model of the regexp replacement in SanitizeURLTitle: each maximal run
of characters outside `isSlugChar` is replaced by one hyphen.  The Bool
argument records whether the scanner is inside such a run (the run's
hyphen has already been emitted). -/
def collapseAux : Bool → List Char → List Char
  | _, [] => []
  | inRun, c :: rest =>
    if isSlugChar c then c :: collapseAux false rest
    else if inRun then collapseAux true rest
    else '-' :: collapseAux true rest

/-- Replace each maximal run of non-slug characters by a single hyphen. -/
def collapseRuns (l : List Char) : List Char := collapseAux false l

/-- Left half of strings.Trim(s, hyphen): drop leading hyphens. -/
def ltrimHyphens : List Char → List Char
  | [] => []
  | c :: rest => if c = '-' then ltrimHyphens rest else c :: rest

/-- Right half of strings.Trim(s, hyphen): drop trailing hyphens. -/
def rtrimHyphens : List Char → List Char
  | [] => []
  | c :: rest =>
    match rtrimHyphens rest with
    | [] => if c = '-' then [] else [c]
    | r => c :: r

/-- strings.Trim(s, hyphen): drop hyphens from both ends. -/
def trimHyphens (l : List Char) : List Char := rtrimHyphens (ltrimHyphens l)

/-- utils.SanitizeURLTitle: lowercase the title, collapse every run of
characters outside `[a-z0-9]` to one hyphen, trim leading and trailing
hyphens. -/
def SanitizeURLTitle (title : String) : String :=
  String.mk (trimHyphens (collapseRuns (title.data.map toLowerChar)))

/-- Character class kept by SanitizeFilename's regexp: ASCII letters,
digits, underscore and hyphen. -/
def isFileChar (c : Char) : Bool :=
  (65 ≤ c.toNat && c.toNat ≤ 90) || (97 ≤ c.toNat && c.toNat ≤ 122) ||
    (48 ≤ c.toNat && c.toNat ≤ 57) || c == '_' || c == '-'

/-- utils.SanitizeFilename: replace spaces with underscores, then delete
every character outside `isFileChar`. -/
def SanitizeFilename (title : String) : String :=
  String.mk ((title.data.map (fun c => if c = ' ' then '_' else c)).filter isFileChar)

/-! Alternative formulation of the slug transformation, following the
spec's wording (replace each offending character by a hyphen, then
collapse adjacent hyphens); compared against the code's scanner. -/

/-- Pointwise replacement of every non-slug character by a hyphen. -/
def hyphenate (c : Char) : Char := if isSlugChar c then c else '-'

/-- Collapse adjacent duplicate hyphens to a single hyphen. -/
def dedupHyphens : List Char → List Char
  | [] => []
  | [c] => [c]
  | a :: b :: rest =>
    if a = '-' ∧ b = '-' then dedupHyphens (b :: rest)
    else a :: dedupHyphens (b :: rest)

/-- The spec's description of slugify: lowercase, turn each character
outside lowercase-alphanumeric into a hyphen, collapse adjacent hyphens,
trim boundary hyphens. -/
def slugifySpec (title : String) : String :=
  String.mk (trimHyphens (dedupHyphens ((title.data.map toLowerChar).map hyphenate)))

/-! ### Structural properties of the slug pipeline -/

/-- Every character is a slug character or a hyphen. -/
def allOk (l : List Char) : Prop := ∀ c ∈ l, isSlugChar c = true ∨ c = '-'

/-- No two adjacent hyphens. -/
def noHH : List Char → Prop
  | a :: b :: rest => ¬(a = '-' ∧ b = '-') ∧ noHH (b :: rest)
  | _ => True

theorem noHH_tail {a : Char} {l : List Char} (h : noHH (a :: l)) : noHH l := by
  cases l with
  | nil => trivial
  | cons b r => exact h.2

theorem isSlugChar_ne_hyphen {c : Char} (h : isSlugChar c = true) : ¬ c = '-' := by
  intro e; subst e; simp [isSlugChar] at h

theorem collapseAux_allOk (b : Bool) (l : List Char) : allOk (collapseAux b l) := by
  induction l generalizing b with
  | nil => intro c hc; simp [collapseAux] at hc
  | cons a rest ih =>
    intro c hc
    by_cases h : isSlugChar a = true
    · simp only [collapseAux, h, if_true] at hc
      rcases List.mem_cons.mp hc with e | hc
      · subst e; exact Or.inl h
      · exact ih false c hc
    · simp only [collapseAux, h, if_false, Bool.false_eq_true] at hc
      cases b with
      | true => exact ih true c (by simpa using hc)
      | false =>
        rcases List.mem_cons.mp (by simpa using hc) with e | hc'
        · exact Or.inr e
        · exact ih true c hc'

theorem collapseAux_noHH (l : List Char) :
    noHH (collapseAux false l) ∧ noHH (collapseAux true l) ∧
      ¬ (collapseAux true l).head? = some '-' := by
  induction l with
  | nil => exact ⟨trivial, trivial, by simp [collapseAux]⟩
  | cons a rest ih =>
    obtain ⟨ihF, ihT, ihH⟩ := ih
    by_cases h : isSlugChar a = true
    · have ha : ¬ a = '-' := isSlugChar_ne_hyphen h
      have hcons : noHH (a :: collapseAux false rest) := by
        cases hrest : collapseAux false rest with
        | nil => trivial
        | cons b r =>
          exact ⟨fun hb => ha hb.1, hrest ▸ ihF⟩
      refine ⟨?_, ?_, ?_⟩
      · simpa [collapseAux, h] using hcons
      · simpa [collapseAux, h] using hcons
      · simp only [collapseAux, h, if_true, List.head?_cons]
        intro e
        exact ha (Option.some.inj e)
    · have hhcons : noHH ('-' :: collapseAux true rest) := by
        cases hrest : collapseAux true rest with
        | nil => trivial
        | cons b r =>
          refine ⟨fun hb => ?_, hrest ▸ ihT⟩
          apply ihH
          rw [hrest, hb.2]
          simp
      refine ⟨?_, ?_, ?_⟩
      · simpa [collapseAux, h] using hhcons
      · simpa [collapseAux, h] using ihT
      · simpa [collapseAux, h] using ihH

theorem collapseAux_fix (l : List Char) (hok : allOk l) (hh : noHH l) :
    collapseAux false l = l ∧
      (¬ l.head? = some '-' → collapseAux true l = l) := by
  induction l with
  | nil => exact ⟨rfl, fun _ => rfl⟩
  | cons a rest ih =>
    have hokr : allOk rest := fun c hc => hok c (List.mem_cons_of_mem a hc)
    have hhr : noHH rest := noHH_tail hh
    obtain ⟨ihF, ihT⟩ := ih hokr hhr
    rcases hok a (List.mem_cons_self a rest) with ha | ha
    · constructor
      · simp [collapseAux, ha, ihF]
      · intro _; simp [collapseAux, ha, ihF]
    · subst ha
      have hhead : ¬ rest.head? = some '-' := by
        cases rest with
        | nil => simp
        | cons b r =>
          intro e
          have hb : b = '-' := Option.some.inj e
          exact hh.1 ⟨rfl, hb⟩
      constructor
      · have hs : isSlugChar '-' = false := by decide
        simp [collapseAux, hs, ihT hhead]
      · intro habs
        exact absurd rfl habs

theorem ltrim_mem {c : Char} : ∀ {l : List Char}, c ∈ ltrimHyphens l → c ∈ l := by
  intro l
  induction l with
  | nil => intro h; simpa [ltrimHyphens] using h
  | cons a rest ih =>
    intro h
    by_cases e : a = '-'
    · simp only [ltrimHyphens, e, if_true] at h
      exact List.mem_cons_of_mem _ (ih (by simpa [e] using h))
    · simpa [ltrimHyphens, e] using h

theorem rtrim_mem {c : Char} : ∀ {l : List Char}, c ∈ rtrimHyphens l → c ∈ l := by
  intro l
  induction l with
  | nil => intro h; simpa [rtrimHyphens] using h
  | cons a rest ih =>
    intro h
    simp only [rtrimHyphens] at h
    cases hrest : rtrimHyphens rest with
    | nil =>
      rw [hrest] at h
      by_cases e : a = '-'
      · simp [e] at h
      · simp only [e, if_false] at h
        simp only [List.mem_singleton] at h
        exact h ▸ List.mem_cons_self a rest
    | cons b r =>
      rw [hrest] at h
      rcases List.mem_cons.mp h with e | h'
      · exact e ▸ List.mem_cons_self a rest
      · exact List.mem_cons_of_mem _ (ih (hrest ▸ h'))

theorem ltrim_noHH : ∀ {l : List Char}, noHH l → noHH (ltrimHyphens l) := by
  intro l
  induction l with
  | nil => intro h; exact h
  | cons a rest ih =>
    intro h
    by_cases e : a = '-'
    · simpa [ltrimHyphens, e] using ih (noHH_tail h)
    · simpa [ltrimHyphens, e] using h

theorem rtrim_head {c : Char} :
    ∀ {l : List Char}, (rtrimHyphens l).head? = some c → l.head? = some c := by
  intro l
  cases l with
  | nil => intro h; simpa [rtrimHyphens] using h
  | cons a rest =>
    intro h
    simp only [rtrimHyphens] at h
    cases hrest : rtrimHyphens rest with
    | nil =>
      rw [hrest] at h
      by_cases e : a = '-'
      · simp [e] at h
      · simp only [e, if_false, List.head?_cons] at h
        simpa using h
    | cons b r =>
      rw [hrest] at h
      simpa using h

theorem rtrim_noHH : ∀ {l : List Char}, noHH l → noHH (rtrimHyphens l) := by
  intro l
  induction l with
  | nil => intro h; exact h
  | cons a rest ih =>
    intro h
    simp only [rtrimHyphens]
    cases hrest : rtrimHyphens rest with
    | nil =>
      by_cases e : a = '-'
      · simp [e]; trivial
      · simp [e]; trivial
    | cons b r =>
      have hr : noHH (b :: r) := hrest ▸ ih (noHH_tail h)
      have hb : rest.head? = some b := rtrim_head (by rw [hrest]; rfl)
      refine ⟨fun hab => ?_, hr⟩
      cases rest with
      | nil => simp at hb
      | cons x xs =>
        have : x = b := by simpa using hb
        exact h.1 ⟨hab.1, this ▸ hab.2⟩

theorem ltrim_head {c : Char} :
    ∀ {l : List Char}, (ltrimHyphens l).head? = some c → ¬ c = '-' := by
  intro l
  induction l with
  | nil => intro h; simp [ltrimHyphens] at h
  | cons a rest ih =>
    intro h
    by_cases e : a = '-'
    · exact ih (by simpa [ltrimHyphens, e] using h)
    · have : a = c := by simpa [ltrimHyphens, e] using h
      exact this ▸ e

theorem ltrim_of_head {l : List Char}
    (h : ∀ c, l.head? = some c → ¬ c = '-') : ltrimHyphens l = l := by
  cases l with
  | nil => rfl
  | cons a rest =>
    have : ¬ a = '-' := h a (by simp)
    simp [ltrimHyphens, this]

theorem rtrim_cons (a : Char) (l : List Char) :
    rtrimHyphens (a :: l) =
      match rtrimHyphens l with
      | [] => if a = '-' then [] else [a]
      | r => a :: r := rfl

theorem rtrim_idem : ∀ (l : List Char), rtrimHyphens (rtrimHyphens l) = rtrimHyphens l := by
  intro l
  induction l with
  | nil => rfl
  | cons a rest ih =>
    rw [rtrim_cons a rest]
    cases hrest : rtrimHyphens rest with
    | nil =>
      by_cases e : a = '-'
      · simp [e, rtrimHyphens]
      · simp [e, rtrimHyphens]
    | cons b r =>
      show rtrimHyphens (a :: b :: r) = a :: b :: r
      have hr : rtrimHyphens (b :: r) = b :: r := by
        rw [← hrest, ih, hrest]
      rw [rtrim_cons a (b :: r), hr]

theorem toLowerChar_fix {c : Char} (h : isSlugChar c = true ∨ c = '-') :
    toLowerChar c = c := by
  rcases h with h | h
  · have : ¬ (65 ≤ c.toNat && c.toNat ≤ 90) = true := by
      simp only [isSlugChar, Bool.or_eq_true, Bool.and_eq_true, decide_eq_true_eq] at h
      simp only [Bool.and_eq_true, decide_eq_true_eq]
      omega
    simp [toLowerChar, this]
  · subst h
    decide

theorem map_toLower_fix {l : List Char} (h : allOk l) : l.map toLowerChar = l := by
  induction l with
  | nil => rfl
  | cons a rest ih =>
    simp only [List.map_cons]
    rw [toLowerChar_fix (h a (List.mem_cons_self a rest)),
      ih (fun c hc => h c (List.mem_cons_of_mem a hc))]

theorem dedup_cons_ne {a : Char} (l : List Char) (h : ¬ a = '-') :
    dedupHyphens (a :: l) = a :: dedupHyphens l := by
  cases l with
  | nil => rfl
  | cons b r => simp [dedupHyphens, h]

theorem collapse_eq_dedup : ∀ (l : List Char),
    collapseAux false l = dedupHyphens (l.map hyphenate) ∧
      '-' :: collapseAux true l = dedupHyphens ('-' :: l.map hyphenate) := by
  intro l
  induction l with
  | nil => exact ⟨rfl, rfl⟩
  | cons a rest ih =>
    obtain ⟨ihF, ihT⟩ := ih
    by_cases h : isSlugChar a = true
    · have ha : ¬ a = '-' := isSlugChar_ne_hyphen h
      have hstep : a :: collapseAux false rest = dedupHyphens (a :: rest.map hyphenate) := by
        rw [dedup_cons_ne _ ha, ihF]
      constructor
      · simpa [collapseAux, h, hyphenate] using hstep
      · have : dedupHyphens ('-' :: a :: rest.map hyphenate) =
            '-' :: dedupHyphens (a :: rest.map hyphenate) := by
          simp [dedupHyphens, ha]
        simp only [List.map_cons, hyphenate, h, if_true, this]
        rw [← hstep]
        simp [collapseAux, h]
    · have hmap : hyphenate a = '-' := by simp [hyphenate, h]
      constructor
      · simp only [collapseAux, h, if_false, Bool.false_eq_true, List.map_cons, hmap]
        exact ihT
      · simp only [collapseAux, h, if_false, Bool.false_eq_true, if_true, List.map_cons, hmap]
        have : dedupHyphens ('-' :: '-' :: rest.map hyphenate) =
            dedupHyphens ('-' :: rest.map hyphenate) := by
          simp [dedupHyphens]
        rw [this]
        exact ihT

/-- C10: SanitizeURLTitle is idempotent, its output is exactly the
lowercased input with every maximal run of characters outside lowercase
alphanumerics collapsed to one hyphen and boundary hyphens trimmed
(stated through the independent formulation slugifySpec), and the empty
string maps to the empty string. -/
theorem sanitizeURLTitle_idempotent (x : String) :
    SanitizeURLTitle (SanitizeURLTitle x) = SanitizeURLTitle x ∧
    SanitizeURLTitle x = slugifySpec x ∧
    SanitizeURLTitle "" = "" := by
  refine ⟨?_, ?_, rfl⟩
  · have hy : SanitizeURLTitle x =
        String.mk (rtrimHyphens (ltrimHyphens (collapseAux false (x.data.map toLowerChar)))) := rfl
    set z := collapseAux false (x.data.map toLowerChar) with hz
    set y := rtrimHyphens (ltrimHyphens z) with hydef
    have hok : allOk y := fun c hc =>
      collapseAux_allOk false (x.data.map toLowerChar) c (ltrim_mem (rtrim_mem hc))
    have hh : noHH y := rtrim_noHH (ltrim_noHH (collapseAux_noHH _).1)
    have hhead : ∀ c, y.head? = some c → ¬ c = '-' := fun c hc =>
      ltrim_head (rtrim_head hc)
    have h1 : (String.mk y).data.map toLowerChar = y := map_toLower_fix hok
    have h2 : collapseAux false y = y := (collapseAux_fix y hok hh).1
    have h3 : ltrimHyphens y = y := ltrim_of_head hhead
    have h4 : rtrimHyphens y = y := by
      rw [hydef, rtrim_idem]
    show String.mk (trimHyphens (collapseRuns ((String.mk y).data.map toLowerChar))) =
      String.mk y
    rw [show (String.mk y).data = y from rfl] at h1
    unfold collapseRuns trimHyphens
    rw [show (String.mk y).data = y from rfl, h1, h2, h3, h4]
  · unfold SanitizeURLTitle slugifySpec collapseRuns
    rw [(collapse_eq_dedup (x.data.map toLowerChar)).1]

/-! ## Rate-limited HTTP client (handlers/export.go, doRequestWithRateLimit) -/

/-- The fields of an HTTP response the retry loop inspects: the status
code and the value Header.Get returns for Retry-After (the empty string
when the header is absent). -/
structure HttpResponse where
  status : Nat
  retryAfter : String
deriving DecidableEq

/-- Outcome of one transport attempt: a network-level error from Do, or
a response. -/
inductive HttpAttempt where
  | netErr (e : String)
  | resp (r : HttpResponse)
deriving DecidableEq

/-- Value of a nonempty all-digit character list, none otherwise. -/
def digitsVal : List Char → Option Nat
  | [] => none
  | ds =>
    if ds.all (fun c => 48 ≤ c.toNat && c.toNat ≤ 57)
    then some (ds.foldl (fun a c => a * 10 + (c.toNat - 48)) 0) else none

/-- Model of strconv.Atoi: an optional sign followed by a nonempty run
of decimal digits (overflow is not modelled). -/
def goAtoi (s : String) : Option Int :=
  match s.data with
  | '+' :: ds => (digitsVal ds).map (fun n => (n : Int))
  | '-' :: ds => (digitsVal ds).map (fun n => -(n : Int))
  | ds => (digitsVal ds).map (fun n => (n : Int))

/-- Milliseconds passed to time.Sleep for one 429 response: the
Retry-After value parsed by Atoi, or 1000 when the header is absent
(Get returned the empty string) or does not parse. -/
def waitMsOf (retryAfterStr : String) : Int :=
  if ¬ retryAfterStr = "" then
    match goAtoi retryAfterStr with
    | none => 1000
    | some ms => ms
  else 1000

/-- doRequestWithRateLimit over the sequence of outcomes the transport
produces for successive attempts: returns the waits performed (the
durations passed to time.Sleep, in milliseconds) together with the first
non-429 response, or the network error that ended the loop.  `none`
models the loop still running when the attempt sequence is exhausted
(the Go loop has no retry cap). -/
def doRequestWithRateLimit : List HttpAttempt → Option (List Int × Except String HttpResponse)
  | [] => none
  | .netErr e :: _ => some ([], .error e)
  | .resp r :: rest =>
    if r.status = 429 then
      match doRequestWithRateLimit rest with
      | none => none
      | some (ws, out) => some (waitMsOf r.retryAfter :: ws, out)
    else some ([], .ok r)

theorem doRequest_append_429 (pre : List HttpResponse) (L : List HttpAttempt)
    (ws : List Int) (o : Except String HttpResponse)
    (hL : doRequestWithRateLimit L = some (ws, o))
    (hpre : ∀ q ∈ pre, q.status = 429) :
    doRequestWithRateLimit (pre.map HttpAttempt.resp ++ L) =
      some ((pre.map fun q => waitMsOf q.retryAfter) ++ ws, o) := by
  induction pre with
  | nil => simpa using hL
  | cons q pre ih =>
    have hq : q.status = 429 := hpre q (List.mem_cons_self q pre)
    have hrec := ih (fun p hp => hpre p (List.mem_cons_of_mem q hp))
    simp [doRequestWithRateLimit, hq, hrec]

/-! ## Collection name cache (handlers/export.go, fetchCollectionName) -/

/-- fetchCollectionName: consult the cache; on a hit return the cached
name without a network call; on a miss perform the lookup (modelled by
net, which covers the HTTP round trip, status check and decode) and on
success store the result.  Returns the outcome, the cache afterwards,
and whether a network call was made. -/
def fetchCollectionName (net : String → Except String String)
    (cache : List (String × String)) (collectionID : String) :
    Except String String × List (String × String) × Bool :=
  match cache.lookup collectionID with
  | some name => (.ok name, cache, false)
  | none =>
    match net collectionID with
    | .error e => (.error e, cache, true)
    | .ok name => (.ok name, (collectionID, name) :: cache, true)

/-- Number of network calls made by two sequential resolutions of the
same collection id, the second running on the cache left by the first. -/
def resolveTwiceCalls (net : String → Except String String)
    (cache : List (String × String)) (collectionID : String) : Nat :=
  let r1 := fetchCollectionName net cache collectionID
  let r2 := fetchCollectionName net r1.2.1 collectionID
  (if r1.2.2 then 1 else 0) + (if r2.2.2 then 1 else 0)

/-! ## Export pipeline (handlers/export.go) -/

/-- The configuration fields the modelled operations read. -/
structure Config where
  DocsBaseURL : String
  DocumentsDir : String
  Limit : Nat
deriving DecidableEq

/-- models.Document. -/
structure Document where
  id : String
  title : String
  urlId : String
  collectionId : String
deriving DecidableEq

/-- filepath.Join of a directory and one component, for the clean
nonempty components this service builds. -/
def joinPath (dir name : String) : String := dir ++ "/" ++ name

/-- Outcomes of the external calls one exportAndSaveDocument run can
make: the documents.export call (status check and decode included), the
collection-name resolution, directory creation, and the file write. -/
structure ExportEnv where
  exportResult : Except String String
  collectionNameResult : Except String String
  mkdirResult : Except String Unit
  writeResult : Except String Unit

/-- exportAndSaveDocument: build the document URL from the slugified
title and the urlId, export the body, prepend the URL line, choose the
directory from the resolved collection name (falling back to the root
staging directory when the document has no collection id or resolution
fails), and write safeTitle.md there.  Returns the path and content of
the file written. -/
def exportAndSaveDocument (cfg : Config) (env : ExportEnv) (doc : Document) :
    Except String (String × String) :=
  let safeURLTitle := SanitizeURLTitle doc.title
  let docURL := cfg.DocsBaseURL ++ "/" ++ safeURLTitle ++ "-" ++ doc.urlId
  let safeTitle := SanitizeFilename doc.title
  match env.exportResult with
  | .error e => .error e
  | .ok body =>
    let content := "Document URL: " ++ docURL ++ "\n\n" ++ body
    let dirPath :=
      if ¬ doc.collectionId = "" then
        match env.collectionNameResult with
        | .error _ => cfg.DocumentsDir
        | .ok collectionName => joinPath cfg.DocumentsDir (SanitizeFilename collectionName)
      else cfg.DocumentsDir
    match env.mkdirResult with
    | .error e => .error e
    | .ok _ =>
      match env.writeResult with
      | .error e => .error e
      | .ok _ => .ok (joinPath dirPath (safeTitle ++ ".md"), content)

/-- Externally visible calls of one export run. -/
inductive ExportEvent where
  | listCall (offset : Nat)
  | exportCall (id : String) (ok : Bool)
deriving DecidableEq

/-- Whether an Except value is a success. -/
def exceptOk {ε α : Type} : Except ε α → Bool
  | .ok _ => true
  | .error _ => false

/-- Pagination loop of ExportDocumentsHandler: fetch the page at the
current offset; a fetch error aborts the run with an HTTP error reply; an
empty page ends the run with the completion message; otherwise every
document of the page is exported (each outcome recorded, failures logged
and skipped) and the loop continues at offset+Limit.  The fuel argument
bounds the number of pages modelled; none means the loop was still
running after that many pages. -/
def exportLoop (cfg : Config) (fetchPage : Nat → Except String (List Document))
    (exportOne : Document → Except String Unit) :
    Nat → Nat → Option (Except String String × List ExportEvent)
  | 0, _ => none
  | fuel + 1, offset =>
    match fetchPage offset with
    | .error e => some (.error ("Error fetching documents: " ++ e), [.listCall offset])
    | .ok docs =>
      if docs.isEmpty then some (.ok "Export completed.", [.listCall offset])
      else
        match exportLoop cfg fetchPage exportOne fuel (offset + cfg.Limit) with
        | none => none
        | some (res, tr) =>
          some (res, .listCall offset ::
            (docs.map (fun d => ExportEvent.exportCall d.id (exceptOk (exportOne d))) ++ tr))

/-- ExportDocumentsHandler: run the pagination loop from offset 0. -/
def ExportDocumentsHandler (cfg : Config)
    (fetchPage : Nat → Except String (List Document))
    (exportOne : Document → Except String Unit) (fuel : Nat) :
    Option (Except String String × List ExportEvent) :=
  exportLoop cfg fetchPage exportOne fuel 0

def isListCall : ExportEvent → Bool
  | .listCall _ => true
  | _ => false

/-! ## Sync pipeline (handlers/upload.go) -/

/-- Model of strings.HasSuffix. -/
def goHasSuffix (s suf : String) : Bool := suf.data.isSuffixOf s.data

/-- Externally visible sink calls of one sync run, with each call's
outcome. -/
inductive SyncEvent where
  | remove (fileID : String) (ok : Bool)
  | upload (path : String) (result : Except String String)
  | add (fileID : String) (ok : Bool)

/-- One entry of the staging directory listing. -/
structure DirEntry where
  name : String
  isDir : Bool
deriving DecidableEq

/-- Outcomes of the external calls one UploadDocumentsHandler run can
make. -/
structure SyncEnv where
  listKnowledge : Except String (List String)
  removeOk : String → Bool
  readDir : Except String (List DirEntry)
  uploadResult : String → Except String String
  addOk : String → Bool

/-- The remove calls the clear phase issues for the listed file ids. -/
def clearEvents (env : SyncEnv) (fileIDs : List String) : List SyncEvent :=
  fileIDs.map (fun f => .remove f (env.removeOk f))

/-- clearKnowledgeCollection: list the knowledge collection (status check
and decode modelled by listKnowledge); on failure return the error; on
success issue one remove call per listed file id, each removal failure
logged and skipped, and return success. -/
def clearKnowledgeCollection (env : SyncEnv) : Except String (List SyncEvent) :=
  match env.listKnowledge with
  | .error e => .error e
  | .ok fileIDs => .ok (clearEvents env fileIDs)

/-- uploadToOpenWebUI: upload one file (open, multipart post, status
check, decode and file-id extraction are modelled by uploadResult); on
success register the returned file id with the knowledge collection. -/
def uploadToOpenWebUI (env : SyncEnv) (filePath : String) : List SyncEvent :=
  match env.uploadResult filePath with
  | .error e => [.upload filePath (.error e)]
  | .ok fileID => [.upload filePath (.ok fileID), .add fileID (env.addOk fileID)]

/-- The directory entries the populate phase acts on: regular files whose
name ends in ".md". -/
def mdEntries (entries : List DirEntry) : List DirEntry :=
  entries.filter (fun f => !f.isDir && goHasSuffix f.name ".md")

/-- The calls of the populate phase: upload each qualifying top-level
file, each failure logged and skipped. -/
def populateEvents (cfg : Config) (env : SyncEnv) (entries : List DirEntry) :
    List SyncEvent :=
  (mdEntries entries).flatMap (fun f => uploadToOpenWebUI env (joinPath cfg.DocumentsDir f.name))

/-- UploadDocumentsHandler: clear, then read the staging directory, then
upload every regular top-level .md file.  Returns the HTTP reply and the
trace of sink calls in order. -/
def UploadDocumentsHandler (cfg : Config) (env : SyncEnv) :
    Except String String × List SyncEvent :=
  match clearKnowledgeCollection env with
  | .error e => (.error ("Error clearing knowledge collection: " ++ e), [])
  | .ok cleared =>
    match env.readDir with
    | .error e => (.error ("Error reading directory: " ++ e), cleared)
    | .ok entries => (.ok "Upload completed.", cleared ++ populateEvents cfg env entries)

/-- Paths of the upload calls in a trace. -/
def uploadPathsOf (tr : List SyncEvent) : List String :=
  tr.filterMap (fun ev => match ev with | .upload p _ => some p | _ => none)

def isRemoveEvent : SyncEvent → Bool
  | .remove _ _ => true
  | _ => false

/-- Sink knowledge-collection membership after a trace of calls: a
successful remove deletes the id, a successful add appends it, any
failed call leaves the membership unchanged. -/
def applyEvent (sink : List String) (ev : SyncEvent) : List String :=
  match ev with
  | .remove f true => sink.filter (fun x => !(x == f))
  | .add f true => sink ++ [f]
  | _ => sink

def sinkAfter (sink : List String) (tr : List SyncEvent) : List String :=
  tr.foldl applyEvent sink

theorem sinkAfter_cons (sink : List String) (ev : SyncEvent) (tr : List SyncEvent) :
    sinkAfter sink (ev :: tr) = sinkAfter (applyEvent sink ev) tr := rfl

/-! ## Helper lemmas shared by the pipeline theorems -/

theorem uploadPathsOf_append (a b : List SyncEvent) :
    uploadPathsOf (a ++ b) = uploadPathsOf a ++ uploadPathsOf b :=
  List.filterMap_append a b _

theorem uploadPathsOf_clearEvents (env : SyncEnv) (ids : List String) :
    uploadPathsOf (clearEvents env ids) = [] := by
  induction ids with
  | nil => rfl
  | cons i ids ih => simpa [clearEvents, uploadPathsOf, List.filterMap_cons] using ih

theorem uploadPathsOf_uploadCall (env : SyncEnv) (p : String) :
    uploadPathsOf (uploadToOpenWebUI env p) = [p] := by
  unfold uploadToOpenWebUI
  cases env.uploadResult p <;> rfl

theorem uploadPathsOf_flatMap (env : SyncEnv) (dir : String) (L : List DirEntry) :
    uploadPathsOf (L.flatMap (fun f => uploadToOpenWebUI env (joinPath dir f.name))) =
      L.map (fun f => joinPath dir f.name) := by
  induction L with
  | nil => rfl
  | cons f fs ih =>
    rw [List.flatMap_cons, uploadPathsOf_append, ih, uploadPathsOf_uploadCall]
    rfl

theorem clearEvents_all_remove (env : SyncEnv) (ids : List String) :
    ∀ ev ∈ clearEvents env ids, isRemoveEvent ev = true := by
  intro ev hev
  rcases List.mem_map.mp hev with ⟨f, _, he⟩
  rw [← he]
  rfl

theorem clearEvents_mem (env : SyncEnv) (ids : List String) :
    ∀ f ∈ ids, SyncEvent.remove f (env.removeOk f) ∈ clearEvents env ids := by
  intro f hf
  exact List.mem_map.mpr ⟨f, hf, rfl⟩

theorem populate_no_remove (cfg : Config) (env : SyncEnv) (entries : List DirEntry) :
    ∀ ev ∈ populateEvents cfg env entries, isRemoveEvent ev = false := by
  intro ev hev
  unfold populateEvents at hev
  rcases List.mem_flatMap.mp hev with ⟨f, _, hf⟩
  unfold uploadToOpenWebUI at hf
  revert hf
  cases env.uploadResult (joinPath cfg.DocumentsDir f.name) with
  | error e =>
    intro hf
    rw [List.mem_singleton.mp hf]
    rfl
  | ok fileID =>
    intro hf
    rcases List.mem_cons.mp hf with he | hf2
    · rw [he]; rfl
    · rw [List.mem_singleton.mp hf2]; rfl

theorem handler_trace (cfg : Config) (env : SyncEnv) (ids : List String)
    (entries : List DirEntry) (hl : env.listKnowledge = .ok ids)
    (hd : env.readDir = .ok entries) :
    UploadDocumentsHandler cfg env =
      (.ok "Upload completed.", clearEvents env ids ++ populateEvents cfg env entries) := by
  simp [UploadDocumentsHandler, clearKnowledgeCollection, hl, hd]

theorem sinkAfter_clear_allOk (env : SyncEnv) :
    ∀ (ids sink : List String), (∀ f ∈ ids, env.removeOk f = true) →
      (∀ x ∈ sink, x ∈ ids) → sinkAfter sink (clearEvents env ids) = [] := by
  intro ids
  induction ids with
  | nil =>
    intro sink _ hsub
    cases sink with
    | nil => rfl
    | cons a s => exact absurd (hsub a (List.mem_cons_self a s)) (List.not_mem_nil a)
  | cons i ids ih =>
    intro sink hok hsub
    have hi : env.removeOk i = true := hok i (List.mem_cons_self i ids)
    rw [show clearEvents env (i :: ids) =
      SyncEvent.remove i (env.removeOk i) :: clearEvents env ids from rfl]
    rw [sinkAfter_cons, hi]
    apply ih _ (fun f hf => hok f (List.mem_cons_of_mem i hf))
    intro x hx
    rcases List.mem_filter.mp hx with ⟨hxs, hxne⟩
    rcases List.mem_cons.mp (hsub x hxs) with e | hmem
    · rw [e] at hxne; simp at hxne
    · exact hmem

theorem sinkAfter_clear_filter (env : SyncEnv) :
    ∀ (ids sink : List String),
      sinkAfter sink (clearEvents env ids) =
        sink.filter (fun x => !(ids.any (fun f => env.removeOk f && x == f))) := by
  intro ids
  induction ids with
  | nil =>
    intro sink
    simp [clearEvents, sinkAfter]
  | cons i ids ih =>
    intro sink
    rw [show clearEvents env (i :: ids) =
      SyncEvent.remove i (env.removeOk i) :: clearEvents env ids from rfl]
    rw [sinkAfter_cons]
    cases hi : env.removeOk i with
    | false =>
      rw [show applyEvent sink (SyncEvent.remove i false) = sink from rfl, ih]
      apply List.filter_congr
      intro x _
      simp [List.any_cons, hi]
    | true =>
      rw [show applyEvent sink (SyncEvent.remove i true) =
        sink.filter (fun x => !(x == i)) from rfl, ih]
      rw [List.filter_filter]
      apply List.filter_congr
      intro x _
      simp only [List.any_cons, hi, true_and, Bool.not_or]
      exact Bool.and_comm _ _

/-! ## Claim theorems -/

/-- C4: the rate-limited request loop returns the first response whose
status is not 429; for each 429 response it sleeps the Retry-After value
parsed as integer milliseconds (1000 when the header is absent or does
not parse) and retries without any cap; a network-level error on any
attempt is returned immediately without retrying. -/
theorem doRequestWithRateLimit_spec
    (pre : List HttpResponse) (hpre : ∀ q ∈ pre, q.status = 429)
    (tail : List HttpAttempt) :
    (∀ r : HttpResponse, ¬ r.status = 429 →
      doRequestWithRateLimit (pre.map HttpAttempt.resp ++ HttpAttempt.resp r :: tail) =
        some (pre.map (fun q => waitMsOf q.retryAfter), .ok r)) ∧
    (∀ e : String,
      doRequestWithRateLimit (pre.map HttpAttempt.resp ++ HttpAttempt.netErr e :: tail) =
        some (pre.map (fun q => waitMsOf q.retryAfter), .error e)) ∧
    (∀ s n, goAtoi s = some n → waitMsOf s = n) ∧
    (∀ s, goAtoi s = none → waitMsOf s = 1000) := by
  refine ⟨?_, ?_, ?_, ?_⟩
  · intro r hr
    have hbase : doRequestWithRateLimit (HttpAttempt.resp r :: tail) = some ([], .ok r) := by
      simp [doRequestWithRateLimit, hr]
    simpa using doRequest_append_429 pre _ [] (.ok r) hbase hpre
  · intro e
    have hbase : doRequestWithRateLimit (HttpAttempt.netErr e :: tail) =
        some ([], .error e) := rfl
    simpa using doRequest_append_429 pre _ [] (.error e) hbase hpre
  · intro s n h
    have hne : ¬ s = "" := by
      intro e
      subst e
      rw [show goAtoi "" = none from rfl] at h
      exact Option.noConfusion h
    simp [waitMsOf, hne, h]
  · intro s h
    by_cases e : s = ""
    · subst e; rfl
    · simp [waitMsOf, e, h]

/-- C4 witness: a 429 with Retry-After 50, a 429 without the header, then
a 200 produce waits of 50 and 1000 milliseconds and return the 200. -/
theorem doRequestWithRateLimit_spec_witness :
    doRequestWithRateLimit
      [HttpAttempt.resp { status := 429, retryAfter := "50" },
       HttpAttempt.resp { status := 429, retryAfter := "" },
       HttpAttempt.resp { status := 200, retryAfter := "" }] =
      some ([50, 1000], .ok { status := 200, retryAfter := "" }) := by
  have h := (doRequestWithRateLimit_spec
      [{ status := 429, retryAfter := "50" }, { status := 429, retryAfter := "" }]
      (by decide) []).1 { status := 200, retryAfter := "" } (by decide)
  exact h

/-- C7: on a cache miss a successful resolution stores the name, and a
second sequential resolution of the same id returns the cached name
without a network call, so two sequential resolutions make exactly one
call; a failed resolution returns the error and stores nothing, so the
next resolution performs the network lookup again. -/
theorem fetchCollectionName_cache_behavior
    (net : String → Except String String) (cache : List (String × String))
    (cid : String) (hmiss : cache.lookup cid = none) :
    (∀ name, net cid = .ok name →
      fetchCollectionName net cache cid = (.ok name, (cid, name) :: cache, true) ∧
      fetchCollectionName net ((cid, name) :: cache) cid =
        (.ok name, (cid, name) :: cache, false) ∧
      resolveTwiceCalls net cache cid = 1) ∧
    (∀ e, net cid = .error e →
      fetchCollectionName net cache cid = (.error e, cache, true) ∧
      resolveTwiceCalls net cache cid = 2) := by
  constructor
  · intro name hnet
    have h1 : fetchCollectionName net cache cid = (.ok name, (cid, name) :: cache, true) := by
      simp [fetchCollectionName, hmiss, hnet]
    have h2 : fetchCollectionName net ((cid, name) :: cache) cid =
        (.ok name, (cid, name) :: cache, false) := by
      simp [fetchCollectionName, List.lookup_cons]
    refine ⟨h1, h2, ?_⟩
    simp [resolveTwiceCalls, h1, h2]
  · intro e hnet
    have h1 : fetchCollectionName net cache cid = (.error e, cache, true) := by
      simp [fetchCollectionName, hmiss, hnet]
    refine ⟨h1, ?_⟩
    simp [resolveTwiceCalls, h1]

/-- C7 witness: resolving c1 against a source that knows it, starting
from the empty cache, stores the name and costs exactly one network call
over two sequential resolutions. -/
theorem fetchCollectionName_cache_witness :
    fetchCollectionName (fun i => if i = "c1" then .ok "HR Team" else .error "missing")
        [] "c1" = (.ok "HR Team", [("c1", "HR Team")], true) ∧
    resolveTwiceCalls (fun i => if i = "c1" then .ok "HR Team" else .error "missing")
        [] "c1" = 1 := by
  have h := (fetchCollectionName_cache_behavior
      (fun i => if i = "c1" then .ok "HR Team" else .error "missing") [] "c1" rfl).1
      "HR Team" rfl
  exact ⟨h.1, h.2.2⟩

/-- C1: a fully successful export of the document titled "My Doc!" with
urlSlugId "xyz" whose collection resolves to "HR Team", with docs base
URL https://view.example.com and staging directory ./tmp, writes the
file ./tmp/HR_Team/My_Doc.md whose content is the document-URL line
followed by two newlines followed by the exported body. -/
theorem exportAndSaveDocument_end_to_end
    (cfg : Config) (env : ExportEnv) (doc : Document) (body : String)
    (htitle : doc.title = "My Doc!") (hurl : doc.urlId = "xyz")
    (hcid : ¬ doc.collectionId = "")
    (hbase : cfg.DocsBaseURL = "https://view.example.com")
    (hdir : cfg.DocumentsDir = "./tmp")
    (hexp : env.exportResult = .ok body)
    (hcoll : env.collectionNameResult = .ok "HR Team")
    (hmk : env.mkdirResult = .ok ())
    (hwr : env.writeResult = .ok ()) :
    exportAndSaveDocument cfg env doc =
      .ok ("./tmp/HR_Team/My_Doc.md",
        "Document URL: https://view.example.com/my-doc-xyz" ++ "\n\n" ++ body) := by
  simp only [exportAndSaveDocument, hexp, hcoll, hmk, hwr, htitle, hurl, hbase, hdir,
    hcid, not_false_eq_true, if_true]
  have hpath : joinPath (joinPath "./tmp" (SanitizeFilename "HR Team"))
      (SanitizeFilename "My Doc!" ++ ".md") = "./tmp/HR_Team/My_Doc.md" := by decide
  have hcontent : "Document URL: " ++
      ("https://view.example.com" ++ "/" ++ SanitizeURLTitle "My Doc!" ++ "-" ++ "xyz") ++
      "\n\n" = "Document URL: https://view.example.com/my-doc-xyz" ++ "\n\n" := by decide
  rw [hpath, hcontent]

/-- C1 witness: the end-to-end export at a concrete environment. -/
theorem exportAndSaveDocument_end_to_end_witness :
    exportAndSaveDocument
      { DocsBaseURL := "https://view.example.com", DocumentsDir := "./tmp", Limit := 25 }
      { exportResult := .ok "the body", collectionNameResult := .ok "HR Team",
        mkdirResult := .ok (), writeResult := .ok () }
      { id := "abc", title := "My Doc!", urlId := "xyz", collectionId := "coll-7" } =
      .ok ("./tmp/HR_Team/My_Doc.md",
        "Document URL: https://view.example.com/my-doc-xyz" ++ "\n\n" ++ "the body") := by
  exact exportAndSaveDocument_end_to_end _ _ _ "the body" rfl rfl
    (by decide) rfl rfl rfl rfl rfl rfl

/-- C9: when the document has a collection id but resolving its name
fails, the export still succeeds and the file is written into the root
staging directory rather than a collection subdirectory. -/
theorem export_fallback_on_resolution_failure
    (cfg : Config) (env : ExportEnv) (doc : Document) (body e : String)
    (hcid : ¬ doc.collectionId = "")
    (hcoll : env.collectionNameResult = .error e)
    (hexp : env.exportResult = .ok body)
    (hmk : env.mkdirResult = .ok ())
    (hwr : env.writeResult = .ok ()) :
    exportAndSaveDocument cfg env doc =
      .ok (joinPath cfg.DocumentsDir (SanitizeFilename doc.title ++ ".md"),
        "Document URL: " ++
          (cfg.DocsBaseURL ++ "/" ++ SanitizeURLTitle doc.title ++ "-" ++ doc.urlId) ++
          "\n\n" ++ body) := by
  simp [exportAndSaveDocument, hexp, hcoll, hmk, hwr, hcid]

/-- C9 witness: a concrete document whose collection lookup fails is
still exported, into the staging root. -/
theorem export_fallback_on_resolution_failure_witness :
    exportAndSaveDocument
      { DocsBaseURL := "https://view.example.com", DocumentsDir := "./tmp", Limit := 25 }
      { exportResult := .ok "the body", collectionNameResult := .error "status 404",
        mkdirResult := .ok (), writeResult := .ok () }
      { id := "abc", title := "My Doc!", urlId := "xyz", collectionId := "coll-7" } =
      .ok ("./tmp/My_Doc.md",
        "Document URL: https://view.example.com/my-doc-xyz" ++ "\n\n" ++ "the body") := by
  have h := export_fallback_on_resolution_failure
    { DocsBaseURL := "https://view.example.com", DocumentsDir := "./tmp", Limit := 25 }
    { exportResult := .ok "the body", collectionNameResult := .error "status 404",
      mkdirResult := .ok (), writeResult := .ok () }
    { id := "abc", title := "My Doc!", urlId := "xyz", collectionId := "coll-7" }
    "the body" "status 404" (by decide) rfl rfl rfl rfl
  rw [h]
  rfl

/-- C8: with configured limit 1, a source returning one document at
offset 0 and an empty page at offset 1, the export pipeline issues
exactly two list calls, at offsets 0 and 0+limit, and terminates
normally upon the empty page. -/
theorem export_two_pages
    (cfg : Config) (fetchPage : Nat → Except String (List Document))
    (exportOne : Document → Except String Unit) (d : Document) (fuel : Nat)
    (hlimit : cfg.Limit = 1)
    (h0 : fetchPage 0 = .ok [d]) (h1 : fetchPage 1 = .ok []) :
    ExportDocumentsHandler cfg fetchPage exportOne (fuel + 2) =
      some (.ok "Export completed.",
        [.listCall 0, .exportCall d.id (exceptOk (exportOne d)), .listCall 1]) ∧
    List.countP isListCall
      [ExportEvent.listCall 0, .exportCall d.id (exceptOk (exportOne d)), .listCall 1] = 2 := by
  constructor
  · simp [ExportDocumentsHandler, exportLoop, h0, h1, hlimit]
  · rfl

/-- C8 witness: the two-page run at a concrete mocked source. -/
theorem export_two_pages_witness :
    ExportDocumentsHandler { DocsBaseURL := "b", DocumentsDir := "d", Limit := 1 }
      (fun o => if o = 0
        then .ok [{ id := "id1", title := "T", urlId := "u", collectionId := "" }]
        else .ok [])
      (fun _ => .ok ()) 2 =
      some (.ok "Export completed.",
        [.listCall 0, .exportCall "id1" true, .listCall 1]) := by
  have h := (export_two_pages { DocsBaseURL := "b", DocumentsDir := "d", Limit := 1 }
    (fun o => if o = 0
      then .ok [{ id := "id1", title := "T", urlId := "u", collectionId := "" }]
      else .ok [])
    (fun _ => .ok ()) { id := "id1", title := "T", urlId := "u", collectionId := "" }
    0 rfl rfl rfl).1
  exact h

/-- C2 counterexample: one listed file id whose removal call fails.  The
clear phase logs and skips the failure and still returns success, the
full run replies with the completion message, yet the membership set at
the start of the populate phase still holds the file, so success of the
clear phase does not imply every listed removal succeeded nor that the
membership set is empty. -/
theorem clear_success_with_failed_removal :
    clearKnowledgeCollection
        { listKnowledge := .ok ["f1"], removeOk := fun _ => false,
          readDir := .ok [], uploadResult := fun _ => .error "unused",
          addOk := fun _ => false } =
      .ok [SyncEvent.remove "f1" false] ∧
    (UploadDocumentsHandler { DocsBaseURL := "", DocumentsDir := "./tmp-files", Limit := 100 }
        { listKnowledge := .ok ["f1"], removeOk := fun _ => false,
          readDir := .ok [], uploadResult := fun _ => .error "unused",
          addOk := fun _ => false }).1 = .ok "Upload completed." ∧
    sinkAfter ["f1"] [SyncEvent.remove "f1" false] = ["f1"] ∧
    ¬ (["f1"] : List String) = [] := by
  exact ⟨rfl, rfl, rfl, by decide⟩

/-- C2 (amended): when the listing succeeds the clear phase returns
success after attempting one removal per listed file id, all before any
upload; the membership afterwards is the initial membership minus the
successfully removed ids, and when every listed removal succeeds and the
listing covers the membership, the membership set is empty at the start
of the populate phase. -/
theorem clear_attempts_all_and_empties_on_full_success
    (env : SyncEnv) (ids sink : List String) (hlist : env.listKnowledge = .ok ids) :
    clearKnowledgeCollection env = .ok (clearEvents env ids) ∧
    (∀ f ∈ ids, SyncEvent.remove f (env.removeOk f) ∈ clearEvents env ids) ∧
    sinkAfter sink (clearEvents env ids) =
      sink.filter (fun x => !(ids.any (fun f => env.removeOk f && x == f))) ∧
    ((∀ f ∈ ids, env.removeOk f = true) → (∀ x ∈ sink, x ∈ ids) →
      sinkAfter sink (clearEvents env ids) = []) := by
  refine ⟨by simp [clearKnowledgeCollection, hlist], clearEvents_mem env ids,
    sinkAfter_clear_filter env ids sink, ?_⟩
  intro hok hsub
  exact sinkAfter_clear_allOk env ids sink hok hsub

/-- C2 amended witness: a two-file membership fully covered by the
listing is emptied when both removals succeed, and with a mixed outcome
only the successfully removed id disappears from the membership. -/
theorem clear_empties_on_full_success_witness :
    sinkAfter ["b", "a"]
      (clearEvents
        { listKnowledge := .ok ["a", "b"], removeOk := fun _ => true,
          readDir := .ok [], uploadResult := fun _ => .error "unused",
          addOk := fun _ => false } ["a", "b"]) = [] ∧
    sinkAfter ["a", "b", "c"]
      (clearEvents
        { listKnowledge := .ok ["a", "b"], removeOk := fun f => f == "a",
          readDir := .ok [], uploadResult := fun _ => .error "unused",
          addOk := fun _ => false } ["a", "b"]) = ["b", "c"] := by
  constructor
  · exact (clear_attempts_all_and_empties_on_full_success
      { listKnowledge := .ok ["a", "b"], removeOk := fun _ => true,
        readDir := .ok [], uploadResult := fun _ => .error "unused",
        addOk := fun _ => false }
      ["a", "b"] ["b", "a"] rfl).2.2.2 (by decide) (by decide)
  · exact ((clear_attempts_all_and_empties_on_full_success
      { listKnowledge := .ok ["a", "b"], removeOk := fun f => f == "a",
        readDir := .ok [], uploadResult := fun _ => .error "unused",
        addOk := fun _ => false }
      ["a", "b"] ["a", "b", "c"] rfl).2.2.1).trans (by decide)

/-- C3: the populate phase attempts an upload exactly for the regular
(non-directory) top-level entries of the staging directory whose names
end in ".md", in listing order; directory entries, such as the
per-collection subdirectories the export pipeline creates, are skipped
and their contents never uploaded or registered. -/
theorem populate_uploads_only_toplevel_md
    (cfg : Config) (env : SyncEnv) (ids : List String) (entries : List DirEntry)
    (hlist : env.listKnowledge = .ok ids) (hdir : env.readDir = .ok entries) :
    uploadPathsOf (UploadDocumentsHandler cfg env).2 =
      (mdEntries entries).map (fun f => joinPath cfg.DocumentsDir f.name) ∧
    (∀ p, p ∈ uploadPathsOf (UploadDocumentsHandler cfg env).2 ↔
      ∃ f ∈ entries, f.isDir = false ∧ goHasSuffix f.name ".md" = true ∧
        p = joinPath cfg.DocumentsDir f.name) := by
  have heq : uploadPathsOf (UploadDocumentsHandler cfg env).2 =
      (mdEntries entries).map (fun f => joinPath cfg.DocumentsDir f.name) := by
    rw [handler_trace cfg env ids entries hlist hdir]
    show uploadPathsOf (clearEvents env ids ++ populateEvents cfg env entries) = _
    rw [uploadPathsOf_append, uploadPathsOf_clearEvents, List.nil_append]
    exact uploadPathsOf_flatMap env cfg.DocumentsDir (mdEntries entries)
  refine ⟨heq, fun p => ?_⟩
  rw [heq]
  constructor
  · intro hp
    rcases List.mem_map.mp hp with ⟨f, hf, he⟩
    rcases List.mem_filter.mp hf with ⟨hfe, hcond⟩
    have hcond2 : f.isDir = false ∧ goHasSuffix f.name ".md" = true := by
      simpa using hcond
    exact ⟨f, hfe, hcond2.1, hcond2.2, he.symm⟩
  · rintro ⟨f, hfe, hdirf, hmd, he⟩
    apply List.mem_map.mpr
    refine ⟨f, List.mem_filter.mpr ⟨hfe, ?_⟩, he.symm⟩
    simp [hdirf, hmd]

/-- C3 witness: of a regular .md file, a directory, and a regular .txt
file, only the .md file's path is uploaded. -/
theorem populate_uploads_only_toplevel_md_witness :
    uploadPathsOf (UploadDocumentsHandler
      { DocsBaseURL := "", DocumentsDir := "./tmp-files", Limit := 100 }
      { listKnowledge := .ok [], removeOk := fun _ => true,
        readDir := .ok [{ name := "a.md", isDir := false },
          { name := "HR_Team", isDir := true }, { name := "b.txt", isDir := false }],
        uploadResult := fun _ => .ok "fid", addOk := fun _ => true }).2 =
      ["./tmp-files/a.md"] := by
  exact (populate_uploads_only_toplevel_md
    { DocsBaseURL := "", DocumentsDir := "./tmp-files", Limit := 100 }
    { listKnowledge := .ok [], removeOk := fun _ => true,
      readDir := .ok [{ name := "a.md", isDir := false },
        { name := "HR_Team", isDir := true }, { name := "b.txt", isDir := false }],
      uploadResult := fun _ => .ok "fid", addOk := fun _ => true }
    [] [{ name := "a.md", isDir := false },
      { name := "HR_Team", isDir := true }, { name := "b.txt", isDir := false }]
    rfl rfl).1

/-- C5: a page-fetch error aborts the whole export run as a single
failure with no document of that page attempted, and a
knowledge-listing error aborts the whole sync with no calls issued at
all; per-item failures are skipped: every document of a fetched page is
attempted regardless of individual export outcomes, and every listed
file id gets its removal attempt and every top-level .md file its upload
attempt regardless of individual outcomes. -/
theorem pipelines_error_propagation
    (cfg : Config) (env : SyncEnv)
    (fetchPage : Nat → Except String (List Document))
    (exportOne : Document → Except String Unit) (fuel offset : Nat) :
    (∀ e, fetchPage offset = .error e →
      exportLoop cfg fetchPage exportOne (fuel + 1) offset =
        some (.error ("Error fetching documents: " ++ e), [.listCall offset])) ∧
    (∀ docs res tr, fetchPage offset = .ok docs → ¬ docs = [] →
      exportLoop cfg fetchPage exportOne (fuel + 1) offset = some (res, tr) →
      ∀ d ∈ docs, ExportEvent.exportCall d.id (exceptOk (exportOne d)) ∈ tr) ∧
    (∀ e, env.listKnowledge = .error e →
      UploadDocumentsHandler cfg env =
        (.error ("Error clearing knowledge collection: " ++ e), [])) ∧
    (∀ ids entries, env.listKnowledge = .ok ids → env.readDir = .ok entries →
      (∀ f ∈ ids, SyncEvent.remove f (env.removeOk f) ∈ (UploadDocumentsHandler cfg env).2) ∧
      uploadPathsOf (UploadDocumentsHandler cfg env).2 =
        (mdEntries entries).map (fun f => joinPath cfg.DocumentsDir f.name)) := by
  refine ⟨?_, ?_, ?_, ?_⟩
  · intro e he
    simp [exportLoop, he]
  · intro docs res tr hfetch hne hloop d hd
    unfold exportLoop at hloop
    rw [hfetch] at hloop
    cases docs with
    | nil => exact absurd rfl hne
    | cons d0 ds =>
      simp only [List.isEmpty_cons, Bool.false_eq_true, if_false] at hloop
      cases hrec : exportLoop cfg fetchPage exportOne fuel (offset + cfg.Limit) with
      | none =>
        rw [hrec] at hloop
        exact Option.noConfusion hloop
      | some pr =>
        obtain ⟨res2, tr2⟩ := pr
        rw [hrec] at hloop
        cases hloop
        apply List.mem_cons_of_mem
        apply List.mem_append_left
        exact List.mem_map.mpr ⟨d, hd, rfl⟩
  · intro e he
    simp [UploadDocumentsHandler, clearKnowledgeCollection, he]
  · intro ids entries hl hd
    constructor
    · intro f hf
      rw [handler_trace cfg env ids entries hl hd]
      exact List.mem_append_left _ (clearEvents_mem env ids f hf)
    · rw [handler_trace cfg env ids entries hl hd]
      show uploadPathsOf (clearEvents env ids ++ populateEvents cfg env entries) = _
      rw [uploadPathsOf_append, uploadPathsOf_clearEvents, List.nil_append]
      exact uploadPathsOf_flatMap env cfg.DocumentsDir (mdEntries entries)

/-- C5 witness: a failing page fetch aborts the export run with a single
error and one list call; a failing knowledge listing aborts the sync
with an error and an empty trace. -/
theorem pipelines_error_propagation_witness :
    exportLoop { DocsBaseURL := "b", DocumentsDir := "d", Limit := 1 }
        (fun _ => .error "boom") (fun _ => .ok ()) 1 0 =
      some (.error "Error fetching documents: boom", [.listCall 0]) ∧
    UploadDocumentsHandler { DocsBaseURL := "b", DocumentsDir := "d", Limit := 1 }
        { listKnowledge := .error "down", removeOk := fun _ => true,
          readDir := .ok [], uploadResult := fun _ => .ok "fid",
          addOk := fun _ => true } =
      (.error "Error clearing knowledge collection: down", []) := by
  constructor
  · exact (pipelines_error_propagation { DocsBaseURL := "b", DocumentsDir := "d", Limit := 1 }
      { listKnowledge := .error "down", removeOk := fun _ => true,
        readDir := .ok [], uploadResult := fun _ => .ok "fid", addOk := fun _ => true }
      (fun _ => .error "boom") (fun _ => .ok ()) 0 0).1 "boom" rfl
  · exact (pipelines_error_propagation { DocsBaseURL := "b", DocumentsDir := "d", Limit := 1 }
      { listKnowledge := .error "down", removeOk := fun _ => true,
        readDir := .ok [], uploadResult := fun _ => .ok "fid", addOk := fun _ => true }
      (fun _ => .error "boom") (fun _ => .ok ()) 0 0).2.2.1 "down" rfl

/-- C6: the sync trace is remove calls followed by upload and add calls
only, so the clear phase fully precedes the populate phase; a listing
failure aborts the run with an error before any call is issued, so zero
uploads are attempted; a successful listing of zero files proceeds
straight to the populate phase. -/
theorem sync_clear_precedes_populate (cfg : Config) (env : SyncEnv) :
    (∀ e, env.listKnowledge = .error e →
      UploadDocumentsHandler cfg env =
        (.error ("Error clearing knowledge collection: " ++ e), []) ∧
      uploadPathsOf (UploadDocumentsHandler cfg env).2 = []) ∧
    (∃ c p, (UploadDocumentsHandler cfg env).2 = c ++ p ∧
      (∀ ev ∈ c, isRemoveEvent ev = true) ∧ (∀ ev ∈ p, isRemoveEvent ev = false)) ∧
    (∀ entries, env.listKnowledge = .ok [] → env.readDir = .ok entries →
      UploadDocumentsHandler cfg env = (.ok "Upload completed.", populateEvents cfg env entries)) := by
  refine ⟨?_, ?_, ?_⟩
  · intro e he
    have h : UploadDocumentsHandler cfg env =
        (.error ("Error clearing knowledge collection: " ++ e), []) := by
      simp [UploadDocumentsHandler, clearKnowledgeCollection, he]
    exact ⟨h, by rw [h]; rfl⟩
  · cases hl : env.listKnowledge with
    | error e =>
      refine ⟨[], [], ?_, by simp, by simp⟩
      simp [UploadDocumentsHandler, clearKnowledgeCollection, hl]
    | ok ids =>
      cases hd : env.readDir with
      | error e =>
        refine ⟨clearEvents env ids, [], ?_, clearEvents_all_remove env ids, by simp⟩
        simp [UploadDocumentsHandler, clearKnowledgeCollection, hl, hd]
      | ok entries =>
        refine ⟨clearEvents env ids, populateEvents cfg env entries, ?_,
          clearEvents_all_remove env ids, populate_no_remove cfg env entries⟩
        rw [handler_trace cfg env ids entries hl hd]
  · intro entries h1 h2
    rw [handler_trace cfg env [] entries h1 h2]
    rfl

/-- C6 witness: an empty successful listing proceeds straight to
populate and uploads the staged file. -/
theorem sync_clear_precedes_populate_witness :
    UploadDocumentsHandler { DocsBaseURL := "", DocumentsDir := "./tmp-files", Limit := 100 }
      { listKnowledge := .ok [], removeOk := fun _ => true,
        readDir := .ok [{ name := "a.md", isDir := false }],
        uploadResult := fun _ => .ok "fid", addOk := fun _ => true } =
      (.ok "Upload completed.",
        [SyncEvent.upload "./tmp-files/a.md" (.ok "fid"), SyncEvent.add "fid" true]) := by
  exact (sync_clear_precedes_populate
    { DocsBaseURL := "", DocumentsDir := "./tmp-files", Limit := 100 }
    { listKnowledge := .ok [], removeOk := fun _ => true,
      readDir := .ok [{ name := "a.md", isDir := false }],
      uploadResult := fun _ => .ok "fid", addOk := fun _ => true }).2.2
    [{ name := "a.md", isDir := false }] rfl rfl
